import Mathlib

/-!
Verification of the parsing-and-classification core of the fast5 exporter.

The source program is Python (src/python/parse_fast5_file.py).  Strings are
modelled as lists of characters, line-oriented text streams as lists of such
lines (each line normally still carrying its trailing newline character, as
Python file iteration produces them).  Floating-point quality arithmetic is
modelled over the real numbers; the NaN produced by numpy on an empty mean is
modelled by an Option result, none standing for the non-finite outcome.
-/

namespace Fast5

/-- A parsed read record, as yielded by the readfq generator:
description, name, sequence, and an optional quality string. -/
structure Record where
  desc : List Char
  name : List Char
  seq : List Char
  qual : Option (List Char)
deriving DecidableEq, Repr

/-- The header-search loop of readfq (lines 93 to 96 of the source):
scan the stream for the first line whose first character is a FASTA or
FASTQ marker, returning that line with its final character stripped and
the remaining stream.  The outer none models the IndexError raised by
indexing a zero-length line; the inner none models reaching end of stream
without finding a header. -/
def searchHeader : List (List Char) → Option (Option (List Char × List (List Char)))
  | [] => some none
  | [] :: _ => none
  | (c :: cs) :: rest =>
    if c = '>' ∨ c = '@' then some (some ((c :: cs).dropLast, rest))
    else searchHeader rest

/-- The sequence-accumulation loop of readfq (lines 100 to 104): collect
lines (with final character stripped) until a line starting with one of
the marker characters is met, which is saved (stripped) as the lookahead.
none models the IndexError on a zero-length line. -/
def readSeqLoop : List (List Char) →
    Option (List (List Char) × Option (List Char) × List (List Char))
  | [] => some ([], none, [])
  | [] :: _ => none
  | (c :: cs) :: rest =>
    if c = '@' ∨ c = '+' ∨ c = '>' then some ([], some ((c :: cs).dropLast), rest)
    else
      match readSeqLoop rest with
      | none => none
      | some (s, la, r) => some ((c :: cs).dropLast :: s, la, r)

/-- The quality-accumulation loop of readfq (lines 111 to 117): collect
stripped lines while tracking the running length leng, which gains the
line length minus one per line (so a zero-length line contributes minus
one, exactly as in the Python); stop successfully as soon as leng reaches
the sequence length.  Returns the collected chunks, whether the loop
ended by success (true) or by stream exhaustion (false), and the
remaining stream.  No character of any line is indexed here. -/
def readQualLoop (leng : Int) (seqLen : Nat) :
    List (List Char) → List (List Char) × Bool × List (List Char)
  | [] => ([], false, [])
  | l :: rest =>
    let leng' := leng + (l.length : Int) - 1
    if (seqLen : Int) ≤ leng' then ([l.dropLast], true, rest)
    else
      match readQualLoop leng' seqLen rest with
      | (qs, ok, r) => (l.dropLast :: qs, ok, r)

/-- Dispatch at the top of the readfq while-loop (lines 92 to 96): when
the buffered last line is falsy (none, or the empty string, both false in
Python), search the stream for a header; otherwise the buffered line is
the header and the stream is untouched. -/
def nextHeader (last : Option (List Char)) (fp : List (List Char)) :
    Option (Option (List Char × List (List Char))) :=
  match last with
  | some (c :: cs) => some (some (c :: cs, fp))
  | _ => searchHeader fp

/-- One pass of the readfq generator (lines 89 to 120 of the source),
written with a fuel parameter to make the unbounded while-loop a
structural recursion; every loop iteration consumes at least one input
line, so fuel equal to the stream length plus one never runs out (the
fuel-exhaustion branch returns no records).  The Bool is true when the
generator finished normally and false when it stopped on the IndexError
of indexing a zero-length line. -/
def readfqGo : Nat → Option (List Char) → List (List Char) → List Record × Bool
  | 0, _, _ => ([], true)
  | fuel + 1, last, fp =>
    match nextHeader last fp with
    | none => ([], false)
    | some none => ([], true)
    | some (some (hdr, fp1)) =>
      match hdr with
      | [] => ([], true)
      | _ :: _ =>
        let desc := hdr.drop 1
        let name := desc.takeWhile (fun c => c ≠ ' ')
        match readSeqLoop fp1 with
        | none => ([], false)
        | some (seqs, lastOpt, fp2) =>
          let seq := seqs.flatten
          match lastOpt with
          | none => ([⟨desc, name, seq, none⟩], true)
          | some [] => ([⟨desc, name, seq, none⟩], true)
          | some (c :: cs) =>
            if c ≠ '+' then
              (⟨desc, name, seq, none⟩ :: (readfqGo fuel (some (c :: cs)) fp2).1,
                (readfqGo fuel (some (c :: cs)) fp2).2)
            else
              match readQualLoop 0 seq.length fp2 with
              | (quals, true, fp3) =>
                (⟨desc, name, seq, some quals.flatten⟩ :: (readfqGo fuel none fp3).1,
                  (readfqGo fuel none fp3).2)
              | (_, false, _) => ([⟨desc, name, seq, none⟩], true)

/-- The readfq generator applied to a full stream: the list of yielded
records, paired with true when the generator ended normally and false
when it died on indexing a zero-length line. -/
def readfq (fp : List (List Char)) : List Record × Bool :=
  readfqGo (fp.length + 1) none fp

/-- Python str.split with an explicit one-character separator: splits at
every occurrence of the separator and keeps empty pieces, so the result
is always non-empty and splitting the empty string gives one empty
piece. -/
def splitOnChar (sep : Char) : List Char → List (List Char)
  | [] => [[]]
  | c :: cs =>
    let r := splitOnChar sep cs
    if c = sep then [] :: r
    else
      match r with
      | [] => [[c]]
      | h :: t => (c :: h) :: t

/-- Assignment into a Python dict modelled as an insertion-ordered
association list: an existing key keeps its position and gets the new
value, a new key is appended at the end. -/
def dinsert (d : List (List Char × List Char)) (k v : List Char) :
    List (List Char × List Char) :=
  match d with
  | [] => [(k, v)]
  | (k', v') :: t => if k' = k then (k', v) :: t else (k', v') :: dinsert t k v

/-- Dict lookup: the value stored under a key, if any. -/
def dget (d : List (List Char × List Char)) (k : List Char) : Option (List Char) :=
  match d with
  | [] => none
  | (k', v') :: t => if k' = k then some v' else dget t k

/-- The parse_fastq_description function (lines 66 to 87 of the source):
split the description on single spaces; a token containing an equals
sign is split on every equals sign and contributes the piece before the
first one as key and the piece between the first and the second one (or
the end) as value; other tokens contribute nothing. -/
def parse_fastq_description (description : List Char) :
    List (List Char × List Char) :=
  (splitOnChar ' ' description).foldl
    (fun d item =>
      if '=' ∈ item then
        let bits := splitOnChar '=' item
        dinsert d (bits.getD 0 []) (bits.getD 1 [])
      else d) []

/-- The behaviour of the descriptor parser in the words of the (amended)
specification: split on single spaces; for every token containing an
equals sign, the key is the part before the first equals sign and the
value is the part after the first equals sign up to, but not including,
the next equals sign; tokens without an equals sign contribute nothing;
a later occurrence of a key overwrites the earlier value. -/
def parse_desc_spec (description : List Char) :
    List (List Char × List Char) :=
  (splitOnChar ' ' description).foldl
    (fun d item =>
      if '=' ∈ item then
        dinsert d (item.takeWhile (fun c => c ≠ '='))
          (((item.dropWhile (fun c => c ≠ '=')).drop 1).takeWhile (fun c => c ≠ '='))
      else d) []

/-- Decomposition of a path at its last slash: the first component is
the prefix up to and including the last slash (empty when there is no
slash), the second is the remainder.  This is the first stage of the
posix os.path.split. -/
def splitLastSlash : List Char → List Char × List Char
  | [] => ([], [])
  | c :: cs =>
    match splitLastSlash cs with
    | ([], t) => if c = '/' then (['/'], cs) else ([], c :: t)
    | (h, t) => (c :: h, t)

/-- Strip trailing slashes from a path prefix. -/
def rstripSlash (l : List Char) : List Char :=
  (l.reverse.dropWhile (fun c => c = '/')).reverse

/-- The posix os.path.split: cut at the last slash, then strip trailing
slashes from the head unless the head is empty or consists of slashes
only. -/
def pySplit (p : List Char) : List Char × List Char :=
  let parts := splitLastSlash p
  let head :=
    if parts.1 ≠ [] ∧ ¬ parts.1.all (fun c => c = '/') then rstripSlash parts.1
    else parts.1
  (head, parts.2)

/-- The while-loop of split_all (lines 122 to 141 of the source), with a
fuel parameter standing for the unbounded loop; every non-sentinel
iteration strictly shortens the path, so fuel equal to the path length
plus one never runs out. -/
def split_allGo : Nat → List Char → List (List Char)
  | 0, _ => []
  | n + 1, path =>
    let parts := pySplit path
    if parts.1 = path then [parts.1]
    else if parts.2 = path then [parts.2]
    else split_allGo n parts.1 ++ [parts.2]

/-- The split_all function: the ordered list of path components, walking
up the tree with os.path.split until an absolute or relative sentinel is
reached. -/
def split_all (path : List Char) : List (List Char) :=
  split_allGo (path.length + 1) path

/-- The body of check_fast5_path as a function of the component list:
a try block indexes the second-to-last and possibly the third-to-last
component and compares them with the exact strings pass and fail; any
IndexError (a list with fewer than two, or exactly two, components for
the respective lookup) is caught and answered with the last component
alone.  The split_all result is never empty, so the empty case is
unreachable. -/
def tagOfComponents (folders_in_path : List (List Char)) : List Char :=
  match folders_in_path.reverse with
  | [] => []
  | [c1] => c1
  | c1 :: c2 :: rest =>
    if c2 = ("pass").toList ∨ c2 = ("fail").toList then c2 ++ '_' :: c1
    else
      match rest with
      | [] => c1
      | c3 :: _ =>
        if c3 = ("pass").toList ∨ c3 = ("fail").toList then
          c3 ++ '_' :: (c2 ++ '_' :: c1)
        else c1

/-- The check_fast5_path function (lines 143 to 158 of the source):
split the path into components and classify by the trailing
components. -/
def check_fast5_path (path : List Char) : List Char :=
  tagOfComponents (split_all path)

/-- The classification tag in the words of the specification: inspect
the last three components of the component list; if the second-to-last
is exactly pass or fail, prepend it to the last; else if the
third-to-last is exactly pass or fail, prepend it and the second-to-last
to the last; else, or when the list is too short for these lookups,
return the last (or only) component. -/
def classifyTagSpec (comps : List (List Char)) : List Char :=
  let r := comps.reverse
  if 2 ≤ comps.length ∧ (r.getD 1 [] = ("pass").toList ∨ r.getD 1 [] = ("fail").toList) then
    r.getD 1 [] ++ '_' :: r.getD 0 []
  else if 3 ≤ comps.length ∧ (r.getD 2 [] = ("pass").toList ∨ r.getD 2 [] = ("fail").toList) then
    r.getD 2 [] ++ '_' :: (r.getD 1 [] ++ '_' :: r.getD 0 [])
  else
    r.getD 0 []

/-- Python substring membership: the needle occurs contiguously in the
hay (the empty needle occurs everywhere). -/
def containsSub (needle hay : List Char) : Bool :=
  match hay with
  | [] => needle.isEmpty
  | _ :: t => needle.isPrefixOf hay || containsSub needle t

/-- The check_is_pass function (lines 17 to 42 of the source): split the
path, test the directory half for the substrings pass and then fail, and
otherwise fall back to comparing the average quality, when given,
against 7; with no quality the answer defaults to true. -/
def check_is_pass (path : List Char) (avg_quality : Option ℚ) : Bool :=
  let folders := pySplit path
  if containsSub (("pass").toList) folders.1 then true
  else if containsSub (("fail").toList) folders.1 then false
  else
    match avg_quality with
    | some q => decide (7 ≤ q)
    | none => true

/-- The pass verdict in the words of the specification: look only at the
directory portion of the path (everything before the last component); if
it contains the substring pass the verdict is true, else if it contains
the substring fail the verdict is false, else a provided average quality
decides by comparison with 7, and with no quality the verdict is true. -/
def isPassSpec (path : List Char) (avg_quality : Option ℚ) : Bool :=
  let dir := (pySplit path).1
  if containsSub (("pass").toList) dir then true
  else if containsSub (("fail").toList) dir then false
  else
    match avg_quality with
    | some q => decide (7 ≤ q)
    | none => true

/-- The average_quality function (lines 44 to 64 of the source): map
each character to its code point (the utf8 byte for the ASCII quality
alphabet), shift by 33, negate, divide by 10, exponentiate base 10,
take the arithmetic mean and convert back with minus ten times the
base-10 logarithm.  numpy yields NaN for the mean of an empty array, so
the empty string produces a non-finite value, modelled as none. -/
noncomputable def average_quality (quality : List Char) : Option ℝ :=
  let codes : List ℕ := quality.map Char.toNat
  let exps : List ℝ := codes.map (fun b : ℕ => (-((b : ℝ) - 33)) / 10)
  let probs : List ℝ := exps.map (fun e : ℝ => (10 : ℝ) ^ e)
  if quality = [] then none
  else some ((-10) * Real.logb 10 (probs.sum / (probs.length : ℝ)))

/-! Helper lemmas about the descriptor parser. -/

theorem splitOnChar_ne_nil (sep : Char) (s : List Char) : splitOnChar sep s ≠ [] := by
  cases s with
  | nil => simp [splitOnChar]
  | cons c cs =>
    simp only [splitOnChar]
    split
    · simp
    · split <;> simp

theorem splitOnChar_getD_zero (sep : Char) (s : List Char) :
    (splitOnChar sep s).getD 0 [] = s.takeWhile (fun c => c ≠ sep) := by
  induction s with
  | nil => rfl
  | cons c cs ih =>
    by_cases hc : c = sep
    · subst hc
      simp [splitOnChar, List.takeWhile_cons]
    · simp only [splitOnChar, if_neg hc]
      cases hr : splitOnChar sep cs with
      | nil => exact absurd hr (splitOnChar_ne_nil sep cs)
      | cons h t =>
        rw [hr] at ih
        simp only [List.getD_cons_zero] at ih ⊢
        simp [List.takeWhile_cons, hc, ih]

theorem splitOnChar_getD_one (sep : Char) (s : List Char) (hmem : sep ∈ s) :
    (splitOnChar sep s).getD 1 []
      = ((s.dropWhile (fun c => c ≠ sep)).drop 1).takeWhile (fun c => c ≠ sep) := by
  induction s with
  | nil => cases hmem
  | cons c cs ih =>
    by_cases hc : c = sep
    · subst hc
      have hdw : (c :: cs).dropWhile (fun x => x ≠ c) = c :: cs := by
        simp [List.dropWhile_cons]
      rw [hdw]
      simp only [splitOnChar, if_pos rfl]
      show (splitOnChar c cs).getD 0 [] = cs.takeWhile (fun x => x ≠ c)
      exact splitOnChar_getD_zero c cs
    · have hmem' : sep ∈ cs := by
        cases hmem with
        | head => exact absurd rfl hc
        | tail _ h => exact h
      simp only [splitOnChar, if_neg hc]
      cases hr : splitOnChar sep cs with
      | nil => exact absurd hr (splitOnChar_ne_nil sep cs)
      | cons h t =>
        rw [hr] at ih
        have hdw : (c :: cs).dropWhile (fun x => x ≠ sep) = cs.dropWhile (fun x => x ≠ sep) := by
          simp [List.dropWhile_cons, hc]
        rw [hdw]
        exact ih hmem'

/-! Theorems about the descriptor parser. -/

/-- C3 counterexample: on the token with two equals signs the stored
value is only the piece between the first and the second equals sign,
not everything after the first one. -/
theorem parse_fastq_description_multi_eq_cex :
    dget (parse_fastq_description (("key=a=b").toList)) (("key").toList) = some (("a").toList)
    ∧ ("a").toList ≠ ("a=b").toList := by decide

/-- C3 as amended: the description is split on single spaces; every
token containing an equals sign maps the part before the first equals
sign to the part after the first equals sign up to, but not including,
the next equals sign; tokens without an equals sign contribute nothing;
on a repeated key the later occurrence overwrites the value. -/
theorem parse_fastq_description_spec : ∀ description : List Char,
    parse_fastq_description description = parse_desc_spec description := by
  intro description
  unfold parse_fastq_description parse_desc_spec
  apply List.foldl_ext
  intro d item _
  by_cases h : '=' ∈ item
  · rw [if_pos h, if_pos h]
    simp only [splitOnChar_getD_zero, splitOnChar_getD_one '=' item h]
  · rw [if_neg h, if_neg h]

/-! Theorems about the quality scorer. -/

/-- C8: the quality scorer never returns a finite average for the empty
quality string (numpy propagates the NaN of an empty mean, modelled as
none), and the empty string is the only input without a finite result. -/
theorem average_quality_empty_none :
    ∀ q : List Char, average_quality q = none ↔ q = [] := by
  intro q
  by_cases h : q = [] <;> simp [average_quality, h]

/-- C9: for every non-empty quality string the scorer returns minus ten
times the base-10 logarithm of the arithmetic mean of the per-character
error probabilities (ten to the power of minus a tenth of the code point
shifted by 33); on four characters of code 33 the result is exactly 0,
on four characters of code 73 it is exactly 40, and on the two-character
string of codes 33 and 73 the result differs from the mean of the raw
Phred integers. -/
theorem average_quality_error_prob_mean :
    (∀ q : List Char, q ≠ [] →
      average_quality q
        = some ((-10) * Real.logb 10
            (((q.map (fun c => (10:ℝ) ^ ((-(((c.toNat : ℝ)) - 33)) / 10))).sum) / ((q.length : ℝ)))))
    ∧ average_quality (("!!!!").toList) = some 0
    ∧ average_quality (("IIII").toList) = some 40
    ∧ average_quality (("!I").toList)
        ≠ some (((('!'.toNat : ℝ) - 33) + (('I'.toNat : ℝ) - 33)) / 2) := by
  refine ⟨?_, ?_, ?_, ?_⟩
  · intro q h
    simp only [average_quality, if_neg h, List.map_map, List.length_map]
    rfl
  · have h1 : ('!'.toNat) = 33 := rfl
    rw [show (("!!!!").toList) = ['!', '!', '!', '!'] from rfl]
    simp only [average_quality, h1, List.map_cons, List.map_nil, List.sum_cons, List.sum_nil,
      List.length_cons, List.length_nil,
      if_neg (by decide : ¬(['!', '!', '!', '!'] : List Char) = [])]
    norm_num [Real.logb_one]
  · have h1 : ('I'.toNat) = 73 := rfl
    rw [show (("IIII").toList) = ['I', 'I', 'I', 'I'] from rfl]
    simp only [average_quality, h1, List.map_cons, List.map_nil, List.sum_cons, List.sum_nil,
      List.length_cons, List.length_nil,
      if_neg (by decide : ¬(['I', 'I', 'I', 'I'] : List Char) = [])]
    have e4 : ((-(((73:ℕ) : ℝ) - 33)) / 10) = (-4 : ℝ) := by norm_num
    rw [e4]
    have hsum : (((10:ℝ)^(-4:ℝ) + ((10:ℝ)^(-4:ℝ) + ((10:ℝ)^(-4:ℝ) + ((10:ℝ)^(-4:ℝ) + 0))))
        / ((4:ℕ) : ℝ)) = (10:ℝ)^(-4:ℝ) := by push_cast; ring
    rw [hsum, Real.logb_rpow (by norm_num) (by norm_num)]
    norm_num
  · have h1 : ('!'.toNat) = 33 := rfl
    have h2 : ('I'.toNat) = 73 := rfl
    rw [show (("!I").toList) = ['!', 'I'] from rfl]
    simp only [average_quality, h1, h2, List.map_cons, List.map_nil, List.sum_cons, List.sum_nil,
      List.length_cons, List.length_nil, if_neg (by decide : ¬(['!', 'I'] : List Char) = [])]
    have e0 : ((-(((33:ℕ) : ℝ) - 33)) / 10) = (0 : ℝ) := by norm_num
    have e4 : ((-(((73:ℕ) : ℝ) - 33)) / 10) = (-4 : ℝ) := by norm_num
    rw [e0, e4, Real.rpow_zero]
    have hpos4 : (0:ℝ) < (10:ℝ) ^ (-4:ℝ) := Real.rpow_pos_of_pos (by norm_num) _
    have hm : (0:ℝ) < ((1:ℝ) + ((10:ℝ) ^ (-4:ℝ) + 0)) / ((2:ℕ) : ℝ) := by positivity
    intro hEq
    have hval : (-10 : ℝ) * Real.logb 10 (((1:ℝ) + ((10:ℝ) ^ (-4:ℝ) + 0)) / ((2:ℕ) : ℝ))
        = ((((33:ℕ) : ℝ) - 33) + (((73:ℕ) : ℝ) - 33)) / 2 :=
      Option.some.inj hEq
    have hval' : Real.logb 10 (((1:ℝ) + ((10:ℝ) ^ (-4:ℝ) + 0)) / ((2:ℕ) : ℝ)) = -2 := by
      have h20 : ((((33:ℕ) : ℝ) - 33) + (((73:ℕ) : ℝ) - 33)) / 2 = 20 := by norm_num
      rw [h20] at hval
      linarith
    have hback := Real.rpow_logb (by norm_num : (0:ℝ) < 10) (by norm_num : (10:ℝ) ≠ 1) hm
    rw [hval'] at hback
    have h100 : (10:ℝ) ^ (-2:ℝ) = 1 / 100 := by
      rw [show (-2:ℝ) = ((-2 : ℤ) : ℝ) by norm_num, Real.rpow_intCast]
      norm_num
    rw [h100] at hback
    have hgt : ((1:ℝ) + ((10:ℝ) ^ (-4:ℝ) + 0)) / ((2:ℕ) : ℝ) > 1 / 2 := by
      push_cast
      linarith
    rw [← hback] at hgt
    norm_num at hgt

/-- Witness for C9: the general formula instantiated at a concrete
one-character quality string. -/
theorem average_quality_error_prob_mean_witness :
    (("!").toList ≠ []) ∧
    average_quality (("!").toList)
      = some ((-10) * Real.logb 10
          ((((("!").toList).map (fun c => (10:ℝ) ^ ((-(((c.toNat : ℝ)) - 33)) / 10))).sum)
            / ((((("!").toList).length : ℕ) : ℝ)))) :=
  ⟨by decide, average_quality_error_prob_mean.1 (("!").toList) (by decide)⟩

/-! Theorems about the record parser on concrete inputs. -/

/-- C4: on the four-line input consisting of the header at r1 runid
equal to abc123, the sequence ACGT, the plus separator and the quality
of four exclamation marks, the parser yields exactly one record with the
full description, name r1, sequence ACGT and quality of four
exclamation marks, and the descriptor parser maps that description to
the singleton association of runid with abc123. -/
theorem readfq_single_record_example :
    readfq [("@r1 runid=abc123\n").toList, ("ACGT\n").toList, ("+\n").toList, ("!!!!\n").toList]
      = ([⟨("r1 runid=abc123").toList, ("r1").toList, ("ACGT").toList, some (("!!!!").toList)⟩],
          true)
    ∧ parse_fastq_description (("r1 runid=abc123").toList)
      = [(("runid").toList, ("abc123").toList)] := by decide

/-! Theorems about the path classification tag. -/

/-- C2 counterexample: the component fastq underscore pass is not
exactly pass, so the classifier does not build the pass-prefixed tag the
claim expects on this path. -/
theorem check_fast5_path_fastq_pass_cex :
    check_fast5_path (("/data/run1/fastq_pass/barcode01/file.fastq").toList)
      ≠ ("pass_barcode01_file.fastq").toList := by decide

/-- C2 as amended: on the fastq underscore pass path the classifier
returns just the file name, because fastq underscore pass is not exactly
pass; a path whose third-to-last component is exactly pass yields the
three-part tag; and the shallow path yields just the file name. -/
theorem check_fast5_path_examples :
    check_fast5_path (("/data/run1/fastq_pass/barcode01/file.fastq").toList)
      = ("file.fastq").toList
    ∧ check_fast5_path (("/data/run1/pass/barcode01/file.fastq").toList)
      = ("pass_barcode01_file.fastq").toList
    ∧ check_fast5_path (("/data/run1/file.fastq").toList)
      = ("file.fastq").toList := by decide

theorem tag_eq_spec (f : List (List Char)) : tagOfComponents f = classifyTagSpec f := by
  unfold tagOfComponents classifyTagSpec
  cases hr : f.reverse with
  | nil =>
    have h0 : f.length = 0 := by rw [← List.length_reverse f, hr]; rfl
    simp [hr, h0]
  | cons c1 r1 =>
    cases r1 with
    | nil =>
      have h1 : f.length = 1 := by rw [← List.length_reverse f, hr]; rfl
      simp [hr, h1]
    | cons c2 r2 =>
      cases r2 with
      | nil =>
        have h2 : f.length = 2 := by rw [← List.length_reverse f, hr]; rfl
        by_cases hpf : c2 = ("pass").toList ∨ c2 = ("fail").toList
        · simp [hr, h2, hpf]
        · simp [hr, h2, hpf]
      | cons c3 r3 =>
        have h3 : f.length = r3.length + 3 := by
          rw [← List.length_reverse f, hr]; simp
        by_cases hpf2 : c2 = ("pass").toList ∨ c2 = ("fail").toList
        · simp [hr, h3, hpf2]
        · by_cases hpf3 : c3 = ("pass").toList ∨ c3 = ("fail").toList
          · simp [hr, h3, hpf2, hpf3]
          · simp [hr, h3, hpf2, hpf3]

/-- C6: for every path the classification tag agrees with the
specification reading of the trailing components: the second-to-last
component being exactly pass or fail gives the two-part tag, else the
third-to-last being exactly pass or fail gives the three-part tag, else
the last component alone, and a component list too short for these
lookups degrades to the last (or only) component instead of an indexing
error. -/
theorem check_fast5_path_matches_spec : ∀ path : List Char,
    check_fast5_path path = classifyTagSpec (split_all path) := by
  intro path
  exact tag_eq_spec (split_all path)

/-- C7: the pass verdict agrees with the specification decision chain on
every path and optional average quality (substring pass of the directory
portion wins, then substring fail, then the comparison of the provided
quality with 7, with a default of true); concretely a fail directory
forces false for every quality, a markerless directory with quality
six point nine gives false, and with no quality gives true. -/
theorem check_is_pass_matches_spec :
    (∀ (path : List Char) (q : Option ℚ), check_is_pass path q = isPassSpec path q)
    ∧ (∀ q : Option ℚ, check_is_pass (("/data/fail/x.fastq").toList) q = false)
    ∧ check_is_pass (("/data/run/x.fastq").toList) (some (69/10)) = false
    ∧ check_is_pass (("/data/run/x.fastq").toList) none = true := by
  refine ⟨fun path q => rfl, ?_, ?_, ?_⟩
  · intro q
    simp only [check_is_pass]
    rw [(by decide : containsSub (("pass").toList) (pySplit (("/data/fail/x.fastq").toList)).1
          = false),
        (by decide : containsSub (("fail").toList) (pySplit (("/data/fail/x.fastq").toList)).1
          = true)]
    simp
  · simp only [check_is_pass]
    rw [(by decide : containsSub (("pass").toList) (pySplit (("/data/run/x.fastq").toList)).1
          = false),
        (by decide : containsSub (("fail").toList) (pySplit (("/data/run/x.fastq").toList)).1
          = false)]
    have h7 : ¬ ((7:ℚ) ≤ 69/10) := by norm_num
    simp [h7]
  · simp only [check_is_pass]
    rw [(by decide : containsSub (("pass").toList) (pySplit (("/data/run/x.fastq").toList)).1
          = false),
        (by decide : containsSub (("fail").toList) (pySplit (("/data/run/x.fastq").toList)).1
          = false)]
    simp

/-! Helper lemmas about the record parser. -/

theorem readQualLoop_true_length :
    ∀ (fp : List (List Char)) (leng : Int) (k : Nat) (qs : List (List Char))
      (r : List (List Char)),
      readQualLoop leng k fp = (qs, true, r) → (k : Int) ≤ leng + (qs.flatten.length : Int) := by
  intro fp
  induction fp with
  | nil => intro leng k qs r h; simp [readQualLoop] at h
  | cons l rest ih =>
    intro leng k qs r h
    simp only [readQualLoop] at h
    by_cases hcond : (k : Int) ≤ leng + (l.length : Int) - 1
    · rw [if_pos hcond] at h
      simp only [Prod.mk.injEq] at h
      obtain ⟨hqs, _, _⟩ := h
      subst hqs
      have hlen : l.dropLast.length = l.length - 1 := List.length_dropLast l
      simp only [List.flatten_cons, List.flatten_nil, List.append_nil, hlen]
      omega
    · rw [if_neg hcond] at h
      rcases hrec : readQualLoop (leng + (l.length : Int) - 1) k rest with ⟨qs', ok, r'⟩
      rw [hrec] at h
      simp only [Prod.mk.injEq] at h
      obtain ⟨hqs, hok, hr⟩ := h
      subst hqs
      subst hok
      have := ih (leng + (l.length : Int) - 1) k qs' r' hrec
      have hlen : l.dropLast.length = l.length - 1 := List.length_dropLast l
      simp only [List.flatten_cons, List.length_append, hlen]
      omega

theorem readfqGo_qual_ge :
    ∀ (fuel : Nat) (last : Option (List Char)) (fp : List (List Char)) (r : Record)
      (q : List Char), r ∈ (readfqGo fuel last fp).1 → r.qual = some q →
      r.seq.length ≤ q.length := by
  intro fuel
  induction fuel with
  | zero => intro last fp r q hr hq; simp [readfqGo] at hr
  | succ n ih =>
    intro last fp r q hr hq
    simp only [readfqGo] at hr
    cases hnh : nextHeader last fp with
    | none => rw [hnh] at hr; simp at hr
    | some o =>
      rw [hnh] at hr
      cases o with
      | none => simp at hr
      | some pr =>
        obtain ⟨hdr, fp1⟩ := pr
        cases hdr with
        | nil => simp at hr
        | cons h0 htl =>
          simp only [] at hr
          cases hsl : readSeqLoop fp1 with
          | none => rw [hsl] at hr; simp at hr
          | some tr =>
            rw [hsl] at hr
            obtain ⟨seqs, lastOpt, fp2⟩ := tr
            cases lastOpt with
            | none =>
              simp at hr
              subst hr
              simp at hq
            | some la =>
              cases la with
              | nil =>
                simp at hr
                subst hr
                simp at hq
              | cons c cs =>
                simp only [] at hr
                by_cases hc : c = '+'
                · rw [if_neg (by simp [hc])] at hr
                  rcases hql : readQualLoop 0 (seqs.flatten.length) fp2 with ⟨qs, ok, fp3⟩
                  rw [hql] at hr
                  cases ok with
                  | true =>
                    simp only [List.mem_cons] at hr
                    cases hr with
                    | inl hhead =>
                      subst hhead
                      simp only [Option.some.injEq] at hq
                      subst hq
                      have hlen := readQualLoop_true_length fp2 0 (seqs.flatten.length) qs fp3 hql
                      simp only [zero_add] at hlen
                      exact_mod_cast hlen
                    | inr hmem => exact ih none fp3 r q hmem hq
                  | false =>
                    simp at hr
                    subst hr
                    simp at hq
                · rw [if_pos hc] at hr
                  simp only [List.mem_cons] at hr
                  cases hr with
                  | inl hhead =>
                    subst hhead
                    simp at hq
                  | inr hmem => exact ih (some (c :: cs)) fp2 r q hmem hq

/-! Theorems about quality lengths of yielded records. -/

/-- C1 counterexample: a quality block longer than the sequence is
emitted in full, not truncated: on a two-base sequence followed by a
four-character quality line, the parser yields the four characters, so
the emitted quality length differs from the sequence length. -/
theorem readfq_quality_not_truncated_cex :
    readfq [("@t\n").toList, ("AC\n").toList, ("+\n").toList, ("ACGT\n").toList]
      = ([⟨("t").toList, ("t").toList, ("AC").toList, some (("ACGT").toList)⟩], true)
    ∧ (("ACGT").toList).length ≠ (("AC").toList).length := by decide

/-- C1 as amended: every record yielded with a present quality satisfies
that the quality length is at least the sequence length (the loop stops
at the first line that reaches the sequence length and emits the whole
accumulated block, so overshoot is kept, not truncated; on well-formed
input where the block length equals the sequence length this is an
equality). -/
theorem readfq_quality_length_ge :
    ∀ (fp : List (List Char)) (r : Record) (q : List Char),
      r ∈ (readfq fp).1 → r.qual = some q → r.seq.length ≤ q.length := by
  intro fp r q hr hq
  exact readfqGo_qual_ge (fp.length + 1) none fp r q hr hq

/-- Witness for C1 as amended: the invariant instantiated at a concrete
well-formed stream. -/
theorem readfq_quality_length_ge_witness :
    ((⟨("w").toList, ("w").toList, ("GG").toList, some (("##").toList)⟩ : Record)
        ∈ (readfq [("@w\n").toList, ("GG\n").toList, ("+\n").toList, ("##\n").toList]).1)
    ∧ (("GG").toList).length ≤ (("##").toList).length :=
  ⟨by decide,
    readfq_quality_length_ge
      [("@w\n").toList, ("GG\n").toList, ("+\n").toList, ("##\n").toList]
      ⟨("w").toList, ("w").toList, ("GG").toList, some (("##").toList)⟩
      (("##").toList) (by decide) rfl⟩

/-! Lemmas tracking which lines the parser loops can see. -/

theorem searchHeader_ne_none :
    ∀ fp : List (List Char), (∀ l ∈ fp, l ≠ []) → searchHeader fp ≠ none := by
  intro fp
  induction fp with
  | nil => intro _ h; simp [searchHeader] at h
  | cons l rest ih =>
    intro hne
    cases l with
    | nil => exact absurd rfl (hne [] (List.mem_cons_self _ _))
    | cons c cs =>
      simp only [searchHeader]
      split
      · simp
      · exact ih (fun x hx => hne x (List.mem_cons_of_mem _ hx))

theorem searchHeader_suffix :
    ∀ (fp : List (List Char)) (h : List Char) (r : List (List Char)),
      searchHeader fp = some (some (h, r)) → r <:+ fp := by
  intro fp
  induction fp with
  | nil => intro h r hh; simp [searchHeader] at hh
  | cons l rest ih =>
    intro h r hh
    cases l with
    | nil => simp [searchHeader] at hh
    | cons c cs =>
      simp only [searchHeader] at hh
      split at hh
      · simp only [Option.some.injEq, Prod.mk.injEq] at hh
        obtain ⟨_, hr⟩ := hh
        subst hr
        exact List.suffix_cons _ _
      · exact (ih h r hh).trans (List.suffix_cons _ _)

theorem readSeqLoop_ne_none :
    ∀ fp : List (List Char), (∀ l ∈ fp, l ≠ []) → readSeqLoop fp ≠ none := by
  intro fp
  induction fp with
  | nil => intro _ h; simp [readSeqLoop] at h
  | cons l rest ih =>
    intro hne
    cases l with
    | nil => exact absurd rfl (hne [] (List.mem_cons_self _ _))
    | cons c cs =>
      simp only [readSeqLoop]
      split
      · simp
      · cases hrec : readSeqLoop rest with
        | none => exact absurd hrec (ih (fun x hx => hne x (List.mem_cons_of_mem _ hx)))
        | some tr =>
          obtain ⟨s, la, r⟩ := tr
          simp

theorem readSeqLoop_suffix :
    ∀ (fp s : List (List Char)) (la : Option (List Char)) (r : List (List Char)),
      readSeqLoop fp = some (s, la, r) → r <:+ fp := by
  intro fp
  induction fp with
  | nil =>
    intro s la r hh
    simp only [readSeqLoop, Option.some.injEq, Prod.mk.injEq] at hh
    obtain ⟨_, _, hr⟩ := hh
    subst hr
    exact List.suffix_refl _
  | cons l rest ih =>
    intro s la r hh
    cases l with
    | nil => simp [readSeqLoop] at hh
    | cons c cs =>
      simp only [readSeqLoop] at hh
      split at hh
      · simp only [Option.some.injEq, Prod.mk.injEq] at hh
        obtain ⟨_, _, hr⟩ := hh
        subst hr
        exact List.suffix_cons _ _
      · cases hrec : readSeqLoop rest with
        | none => rw [hrec] at hh; simp at hh
        | some tr =>
          obtain ⟨s', la', r'⟩ := tr
          rw [hrec] at hh
          simp only [Option.some.injEq, Prod.mk.injEq] at hh
          obtain ⟨_, _, hr⟩ := hh
          subst hr
          exact (ih s' la' r' hrec).trans (List.suffix_cons _ _)

theorem readQualLoop_suffix :
    ∀ (fp : List (List Char)) (leng : Int) (k : Nat) (qs : List (List Char)) (ok : Bool)
      (r : List (List Char)),
      readQualLoop leng k fp = (qs, ok, r) → r <:+ fp := by
  intro fp
  induction fp with
  | nil =>
    intro leng k qs ok r hh
    simp only [readQualLoop, Prod.mk.injEq] at hh
    obtain ⟨_, _, hr⟩ := hh
    subst hr
    exact List.suffix_refl _
  | cons l rest ih =>
    intro leng k qs ok r hh
    simp only [readQualLoop] at hh
    split at hh
    · simp only [Prod.mk.injEq] at hh
      obtain ⟨_, _, hr⟩ := hh
      subst hr
      exact List.suffix_cons _ _
    · rcases hrec : readQualLoop (leng + (l.length : Int) - 1) k rest with ⟨qs', ok', r'⟩
      rw [hrec] at hh
      simp only [Prod.mk.injEq] at hh
      obtain ⟨_, _, hr⟩ := hh
      subst hr
      exact (ih _ k qs' ok' r' hrec).trans (List.suffix_cons _ _)

theorem nextHeader_eq_none :
    ∀ (last : Option (List Char)) (fp : List (List Char)),
      nextHeader last fp = none → searchHeader fp = none := by
  intro last fp h
  cases last with
  | none => exact h
  | some l =>
    cases l with
    | nil => exact h
    | cons c cs => simp [nextHeader] at h

theorem nextHeader_suffix :
    ∀ (last : Option (List Char)) (fp : List (List Char)) (hdr : List Char)
      (fp1 : List (List Char)),
      nextHeader last fp = some (some (hdr, fp1)) → fp1 <:+ fp := by
  intro last fp hdr fp1 h
  cases last with
  | none => exact searchHeader_suffix fp hdr fp1 h
  | some l =>
    cases l with
    | nil => exact searchHeader_suffix fp hdr fp1 h
    | cons c cs =>
      simp only [nextHeader, Option.some.injEq, Prod.mk.injEq] at h
      obtain ⟨_, hr⟩ := h
      subst hr
      exact List.suffix_refl _

theorem readfqGo_ok_of_nonempty :
    ∀ (fuel : Nat) (last : Option (List Char)) (fp : List (List Char)),
      (∀ l ∈ fp, l ≠ []) → (readfqGo fuel last fp).2 = true := by
  intro fuel
  induction fuel with
  | zero => intro last fp _; rfl
  | succ n ih =>
    intro last fp hne
    simp only [readfqGo]
    cases hnh : nextHeader last fp with
    | none => exact absurd (nextHeader_eq_none last fp hnh) (searchHeader_ne_none fp hne)
    | some o =>
      cases o with
      | none => rfl
      | some pr =>
        obtain ⟨hdr, fp1⟩ := pr
        have hsuf : fp1 <:+ fp := nextHeader_suffix last fp hdr fp1 hnh
        have hne1 : ∀ l ∈ fp1, l ≠ [] := fun l hl => hne l (hsuf.mem hl)
        cases hdr with
        | nil => rfl
        | cons h0 htl =>
          simp only []
          cases hsl : readSeqLoop fp1 with
          | none => exact absurd hsl (readSeqLoop_ne_none fp1 hne1)
          | some tr =>
            obtain ⟨seqs, lastOpt, fp2⟩ := tr
            have hsuf2 := readSeqLoop_suffix fp1 seqs lastOpt fp2 hsl
            have hne2 : ∀ l ∈ fp2, l ≠ [] := fun l hl => hne1 l (hsuf2.mem hl)
            cases lastOpt with
            | none => rfl
            | some la =>
              cases la with
              | nil => rfl
              | cons c cs =>
                simp only []
                by_cases hc : c = '+'
                · rw [if_neg (by simp [hc])]
                  rcases hql : readQualLoop 0 (seqs.flatten.length) fp2 with ⟨qs, ok, fp3⟩
                  have hsuf3 := readQualLoop_suffix fp2 0 (seqs.flatten.length) qs ok fp3 hql
                  have hne3 : ∀ l ∈ fp3, l ≠ [] := fun l hl => hne2 l (hsuf3.mem hl)
                  cases ok with
                  | true => exact ih none fp3 hne3
                  | false => rfl
                · rw [if_pos hc]
                  exact ih (some (c :: cs)) fp2 hne2

/-! Theorems about zero-length lines. -/

/-- C10 counterexample: a stream containing a zero-length line need not
make the parser fail: a zero-length line inside the quality block is
consumed without any character access (it only lowers the running length
by one), and the parser still succeeds and yields a record. -/
theorem readfq_blank_quality_line_cex :
    readfq [("@r\n").toList, ("A\n").toList, ("+\n").toList, [], ("!!\n").toList]
      = ([⟨("r").toList, ("r").toList, ("A").toList, some (("!!").toList)⟩], true) := by decide

/-- C10 as amended: on every stream whose lines are all non-empty, every
character access of the parser is in bounds (it finishes without the
indexing error); a zero-length line examined by the header scan or by
the sequence loop does fail on the first-character indexing, with no
record yielded for the interrupted read; but a zero-length line inside
the quality block is not character-accessed and does not fail. -/
theorem readfq_empty_line_indexing :
    (∀ fp : List (List Char), (∀ l ∈ fp, l ≠ []) → (readfq fp).2 = true)
    ∧ readfq [[]] = ([], false)
    ∧ readfq [("@r\n").toList, []] = ([], false) :=
  ⟨fun fp h => readfqGo_ok_of_nonempty (fp.length + 1) none fp h, by decide, by decide⟩

/-- Witness for C10 as amended: the in-bounds part instantiated at a
concrete stream of non-empty lines. -/
theorem readfq_empty_line_indexing_witness :
    (∀ l ∈ [("@a\n").toList, ("C\n").toList], l ≠ ([] : List Char))
    ∧ (readfq [("@a\n").toList, ("C\n").toList]).2 = true :=
  ⟨by decide, readfq_empty_line_indexing.1 [("@a\n").toList, ("C\n").toList] (by decide)⟩

/-! Lemmas running the sequence and quality loops over structured input. -/

theorem readSeqLoop_run :
    ∀ (seqLines : List (List Char)) (c0 : Char) (cs0 : List Char) (rest : List (List Char)),
      (∀ l ∈ seqLines, l ≠ []) →
      (∀ l ∈ seqLines, l.headD ' ' ≠ '@' ∧ l.headD ' ' ≠ '+' ∧ l.headD ' ' ≠ '>') →
      (c0 = '@' ∨ c0 = '+' ∨ c0 = '>') →
      readSeqLoop (seqLines ++ (c0 :: cs0) :: rest)
        = some (seqLines.map List.dropLast, some ((c0 :: cs0).dropLast), rest) := by
  intro seqLines
  induction seqLines with
  | nil =>
    intro c0 cs0 rest _ _ hmark
    simp only [List.nil_append, readSeqLoop, List.map_nil]
    rw [if_pos hmark]
  | cons l ls ih =>
    intro c0 cs0 rest h1 h2 hmark
    cases hl : l with
    | nil => exact absurd hl (h1 l (List.mem_cons_self _ _))
    | cons c cs =>
      subst hl
      have hhead := h2 (c :: cs) (List.mem_cons_self _ _)
      simp only [List.headD_cons] at hhead
      obtain ⟨ha, hb, hc⟩ := hhead
      simp only [List.cons_append, readSeqLoop, List.append_eq]
      rw [if_neg (by simp [ha, hb, hc])]
      rw [ih c0 cs0 rest (fun x hx => h1 x (List.mem_cons_of_mem _ hx))
          (fun x hx => h2 x (List.mem_cons_of_mem _ hx)) hmark]
      simp

theorem readQualLoop_exhaust :
    ∀ (qualLines : List (List Char)) (leng : Int) (k : Nat),
      (∀ l ∈ qualLines, l ≠ []) →
      leng + ((qualLines.map (fun l => (l.length : Int) - 1)).sum) < k →
      readQualLoop leng k qualLines = (qualLines.map List.dropLast, false, []) := by
  intro qualLines
  induction qualLines with
  | nil => intro leng k _ _; rfl
  | cons l ls ih =>
    intro leng k h1 hsum
    have hlnil := h1 l (List.mem_cons_self _ _)
    have hlpos : 1 ≤ (l.length : Int) := by
      have := List.length_pos.mpr hlnil
      omega
    have hnn : 0 ≤ ((ls.map (fun x => (x.length : Int) - 1)).sum) := by
      apply List.sum_nonneg
      intro x hx
      simp only [List.mem_map] at hx
      obtain ⟨y, hy, hxval⟩ := hx
      have hynil : y ≠ [] := h1 y (List.mem_cons_of_mem _ hy)
      have hy1 : 1 ≤ (y.length : Int) := by
        have := List.length_pos.mpr hynil
        omega
      omega
    simp only [List.map_cons, List.sum_cons] at hsum
    simp only [readQualLoop]
    rw [if_neg (by omega)]
    rw [ih (leng + (l.length : Int) - 1) k (fun x hx => h1 x (List.mem_cons_of_mem _ hx))
        (by omega)]
    simp

/-! Theorems about truncated trailing records. -/

/-- C5: for every stream made of a header line, non-marker sequence
lines, a separator line starting with the plus character, and trailing
quality lines whose accumulated length (line length minus one each)
never reaches the sequence length, the parser emits exactly one degraded
record carrying the full accumulated sequence with no quality, and
terminates. -/
theorem readfq_truncated_fastq_degrades :
    ∀ (c : Char) (cs : List Char) (seqLines : List (List Char)) (ss : List Char)
      (qualLines : List (List Char)),
      (c = '@' ∨ c = '>') → cs ≠ [] → ss ≠ [] →
      (∀ l ∈ seqLines, l ≠ []) →
      (∀ l ∈ seqLines, l.headD ' ' ≠ '@' ∧ l.headD ' ' ≠ '+' ∧ l.headD ' ' ≠ '>') →
      (∀ l ∈ qualLines, l ≠ []) →
      ((qualLines.map (fun l => (l.length : Int) - 1)).sum
          < (((seqLines.map List.dropLast).flatten.length : Int))) →
      readfq ((c :: cs) :: (seqLines ++ ('+' :: ss) :: qualLines))
        = ([⟨cs.dropLast, cs.dropLast.takeWhile (fun x => x ≠ ' '),
            (seqLines.map List.dropLast).flatten, none⟩], true) := by
  intro c cs seqLines ss qualLines hhd hcs hss h1 h2 hq1 hqsum
  simp only [readfq, readfqGo, nextHeader, searchHeader]
  rw [if_pos hhd.symm]
  rw [List.dropLast_cons_of_ne_nil hcs]
  simp only []
  rw [readSeqLoop_run seqLines '+' ss qualLines h1 h2 (Or.inr (Or.inl rfl))]
  rw [List.dropLast_cons_of_ne_nil hss]
  simp only []
  rw [if_neg (by simp)]
  rw [readQualLoop_exhaust qualLines 0 ((seqLines.map List.dropLast).flatten.length) hq1
      (by omega)]
  simp

/-- Witness for C5: the degraded-record behaviour instantiated at the
concrete truncated stream from the specification, whose quality line
holds two characters against a four-base sequence. -/
theorem readfq_truncated_fastq_degrades_witness :
    readfq [("@r1\n").toList, ("ACGT\n").toList, ("+\n").toList, ("!!").toList]
      = ([⟨("r1").toList, ("r1").toList, ("ACGT").toList, none⟩], true) := by
  have h := readfq_truncated_fastq_degrades '@' (("r1\n").toList) [("ACGT\n").toList]
    (("\n").toList) [("!!").toList] (Or.inl rfl) (by decide) (by decide) (by decide)
    (by decide) (by decide) (by decide)
  exact h

/-! Fuel adequacy: the fuel given to the parser loop is irrelevant as
long as it exceeds the stream length, so the fuel embedding of the
unbounded while-loop is faithful. -/

theorem readSeqLoop_lt :
    ∀ (fp seqs : List (List Char)) (la : List Char) (r : List (List Char)),
      readSeqLoop fp = some (seqs, some la, r) → r.length < fp.length := by
  intro fp
  induction fp with
  | nil => intro seqs la r h; simp [readSeqLoop] at h
  | cons l rest ih =>
    intro seqs la r h
    cases l with
    | nil => simp [readSeqLoop] at h
    | cons c cs =>
      simp only [readSeqLoop] at h
      split at h
      · simp only [Option.some.injEq, Prod.mk.injEq] at h
        obtain ⟨_, _, hr⟩ := h
        subst hr
        simp
      · cases hrec : readSeqLoop rest with
        | none => rw [hrec] at h; simp at h
        | some tr =>
          obtain ⟨s', la', r'⟩ := tr
          rw [hrec] at h
          simp only [Option.some.injEq, Prod.mk.injEq] at h
          obtain ⟨_, hla, hr⟩ := h
          subst hr
          cases la' with
          | none => simp at hla
          | some la'' =>
            have := ih s' la'' r' hrec
            simp only [List.length_cons]
            omega

theorem readQualLoop_lt :
    ∀ (fp : List (List Char)) (leng : Int) (k : Nat) (qs : List (List Char))
      (r : List (List Char)),
      readQualLoop leng k fp = (qs, true, r) → r.length < fp.length := by
  intro fp
  induction fp with
  | nil => intro leng k qs r h; simp [readQualLoop] at h
  | cons l rest ih =>
    intro leng k qs r h
    simp only [readQualLoop] at h
    split at h
    · simp only [Prod.mk.injEq] at h
      obtain ⟨_, _, hr⟩ := h
      subst hr
      simp
    · rcases hrec : readQualLoop (leng + (l.length : Int) - 1) k rest with ⟨qs', ok', r'⟩
      rw [hrec] at h
      simp only [Prod.mk.injEq] at h
      obtain ⟨_, hok, hr⟩ := h
      subst hr
      subst hok
      have := ih _ k qs' r' hrec
      simp only [List.length_cons]
      omega

theorem readfqGo_fuel_irrelevant :
    ∀ (n : Nat) (fp : List (List Char)) (last : Option (List Char)) (f1 f2 : Nat),
      fp.length ≤ n → fp.length < f1 → fp.length < f2 →
      readfqGo f1 last fp = readfqGo f2 last fp := by
  intro n
  induction n with
  | zero =>
    intro fp last f1 f2 hn h1 h2
    have hfp : fp = [] := List.length_eq_zero.mp (Nat.le_zero.mp hn)
    subst hfp
    cases f1 with
    | zero => omega
    | succ a =>
      cases f2 with
      | zero => omega
      | succ b =>
        simp only [readfqGo]
        cases last with
        | none => rfl
        | some l =>
          cases l with
          | nil => rfl
          | cons c cs => rfl
  | succ n ih =>
    intro fp last f1 f2 hn h1 h2
    cases f1 with
    | zero => omega
    | succ a =>
      cases f2 with
      | zero => omega
      | succ b =>
        simp only [readfqGo]
        cases hnh : nextHeader last fp with
        | none => rfl
        | some o =>
          cases o with
          | none => rfl
          | some pr =>
            obtain ⟨hdr, fp1⟩ := pr
            have hlen1 : fp1.length ≤ fp.length :=
              (nextHeader_suffix last fp hdr fp1 hnh).length_le
            cases hdr with
            | nil => rfl
            | cons h0 htl =>
              simp only []
              cases hsl : readSeqLoop fp1 with
              | none => rfl
              | some tr =>
                obtain ⟨seqs, lastOpt, fp2⟩ := tr
                cases lastOpt with
                | none => rfl
                | some la =>
                  have hlt2 : fp2.length < fp1.length :=
                    readSeqLoop_lt fp1 seqs la fp2 hsl
                  cases la with
                  | nil => rfl
                  | cons c cs =>
                    simp only []
                    by_cases hc : c = '+'
                    · rw [if_neg (by simp [hc]), if_neg (by simp [hc])]
                      rcases hql : readQualLoop 0 (seqs.flatten.length) fp2 with ⟨qs, ok, fp3⟩
                      cases ok with
                      | true =>
                        have hlt3 : fp3.length < fp2.length :=
                          readQualLoop_lt fp2 0 (seqs.flatten.length) qs fp3 hql
                        simp only []
                        rw [ih fp3 none a b (by omega) (by omega) (by omega)]
                      | false => rfl
                    · rw [if_pos hc, if_pos hc]
                      rw [ih fp2 (some (c :: cs)) a b (by omega) (by omega) (by omega)]

theorem readfq_fuel_sufficient :
    ∀ (fp : List (List Char)) (fuel : Nat), fp.length < fuel →
      readfqGo fuel none fp = readfq fp := by
  intro fp fuel h
  exact readfqGo_fuel_irrelevant fp.length fp none fuel (fp.length + 1) le_rfl h (by omega)

/-! Fuel adequacy for the path-splitting loop. -/

theorem splitLastSlash_append :
    ∀ p : List Char, (splitLastSlash p).1 ++ (splitLastSlash p).2 = p := by
  intro p
  induction p with
  | nil => rfl
  | cons c cs ih =>
    simp only [splitLastSlash]
    rcases hs : splitLastSlash cs with ⟨h1, t1⟩
    rw [hs] at ih
    cases h1 with
    | nil =>
      by_cases hc : c = '/'
      · subst hc
        simp
      · simp only [if_neg hc]
        simpa using ih
    | cons x xs =>
      simpa using ih

theorem splitLastSlash_head_ends :
    ∀ p : List Char, (splitLastSlash p).1 = []
      ∨ ∃ h' : List Char, (splitLastSlash p).1 = h' ++ ['/'] := by
  intro p
  induction p with
  | nil => exact Or.inl rfl
  | cons c cs ih =>
    simp only [splitLastSlash]
    rcases hs : splitLastSlash cs with ⟨h1, t1⟩
    rw [hs] at ih
    cases h1 with
    | nil =>
      by_cases hc : c = '/'
      · subst hc
        exact Or.inr ⟨[], rfl⟩
      · simp [if_neg hc]
    | cons x xs =>
      rcases ih with hnil | ⟨h', hh⟩
      · simp at hnil
      · refine Or.inr ⟨c :: h', ?_⟩
        simp only at hh ⊢
        rw [hh]
        rfl

theorem rstripSlash_length_le (l : List Char) : (rstripSlash l).length ≤ l.length := by
  simp only [rstripSlash, List.length_reverse]
  calc (l.reverse.dropWhile (fun c => c = '/')).length
      ≤ l.reverse.length := (List.dropWhile_sublist _).length_le
    _ = l.length := List.length_reverse l

theorem rstripSlash_lt (h' : List Char) :
    (rstripSlash (h' ++ ['/'])).length < (h' ++ ['/']).length := by
  simp only [rstripSlash, List.length_reverse, List.reverse_append]
  have hstep : ((List.reverse ['/'] ++ h'.reverse).dropWhile (fun c => c = '/')).length
      = (h'.reverse.dropWhile (fun c => c = '/')).length := by
    simp [List.dropWhile_cons]
  rw [hstep]
  have hle : (h'.reverse.dropWhile (fun c => c = '/')).length ≤ h'.length := by
    calc (h'.reverse.dropWhile (fun c => c = '/')).length
        ≤ h'.reverse.length := (List.dropWhile_sublist _).length_le
      _ = h'.length := List.length_reverse h'
  simp only [List.length_append, List.length_cons, List.length_nil]
  omega

theorem pySplit_head_lt :
    ∀ p : List Char, (pySplit p).1 ≠ p → (pySplit p).1.length < p.length := by
  intro p hne
  have happ := splitLastSlash_append p
  have hlenapp : (splitLastSlash p).1.length + (splitLastSlash p).2.length = p.length := by
    have := congrArg List.length happ
    rw [List.length_append] at this
    exact this
  by_cases hcond : (splitLastSlash p).1 ≠ [] ∧ ¬ (splitLastSlash p).1.all (fun c => c = '/')
  · have hhead : (pySplit p).1 = rstripSlash (splitLastSlash p).1 := by
      simp only [pySplit, if_pos hcond]
    rcases splitLastSlash_head_ends p with hnil | ⟨h', hh⟩
    · exact absurd hnil hcond.1
    · rw [hhead, hh]
      calc (rstripSlash (h' ++ ['/'])).length
          < (h' ++ ['/']).length := rstripSlash_lt h'
        _ ≤ p.length := by rw [← hh]; omega
  · have hhead : (pySplit p).1 = (splitLastSlash p).1 := by
      simp only [pySplit, if_neg hcond]
    rw [hhead] at hne ⊢
    have h2ne : (splitLastSlash p).2 ≠ [] := by
      intro h2
      rw [h2, List.append_nil] at happ
      exact hne happ
    have h2pos : 0 < (splitLastSlash p).2.length := List.length_pos.mpr h2ne
    omega


theorem split_allGo_fuel_irrelevant :
    ∀ (n : Nat) (p : List Char) (f1 f2 : Nat),
      p.length ≤ n → p.length < f1 → p.length < f2 →
      split_allGo f1 p = split_allGo f2 p := by
  intro n
  induction n with
  | zero =>
    intro p f1 f2 hn h1 h2
    have hp : p = [] := List.length_eq_zero.mp (Nat.le_zero.mp hn)
    subst hp
    cases f1 with
    | zero => omega
    | succ a =>
      cases f2 with
      | zero => omega
      | succ b => rfl
  | succ n ih =>
    intro p f1 f2 hn h1 h2
    cases f1 with
    | zero => omega
    | succ a =>
      cases f2 with
      | zero => omega
      | succ b =>
        simp only [split_allGo]
        by_cases hA : (pySplit p).1 = p
        · rw [if_pos hA, if_pos hA]
        · rw [if_neg hA, if_neg hA]
          by_cases hB : (pySplit p).2 = p
          · rw [if_pos hB, if_pos hB]
          · rw [if_neg hB, if_neg hB]
            have hlt := pySplit_head_lt p hA
            rw [ih (pySplit p).1 a b (by omega) (by omega) (by omega)]

theorem split_all_fuel_sufficient :
    ∀ (p : List Char) (fuel : Nat), p.length < fuel →
      split_allGo fuel p = split_all p := by
  intro p fuel h
  exact split_allGo_fuel_irrelevant p.length p fuel (p.length + 1) le_rfl h (by omega)

end Fast5
